import Mathlib

/-!
# egap / `tools/main_gsacak.c`: output stages of the chunk loop

A shallow embedding of the parts of `main` that serialise the results of one
chunk (gap-encoded LCP, BWT and RLE(BWT), raw SA names), of the pre-flight
validation of the gap width, and of the chunk-size computation.

Conventions.
* Arrays are lists read with `List.getD`; the source allocates `SA` and `LCP`
  with `len` cells, so every read made by the loops is in range.
* `LCP` entries and option values (`int_t`, `int`) are `Int`; `size_t` and
  `uint64_t` values, and the offsets held by `SA`, are `Nat`; a conversion to
  an unsigned 64-bit type is an explicit reduction modulo `2^64`.
* `sizeof(int_t)` is a parameter `w` (4 in the default build, 8 in the
  64-bit build); `I_MAX` is a parameter as well.
* A stream written with `fputc` / `fwrite` is the list of bytes written.
-/

namespace Gsacak

/-! ## Gap-encoded LCP (lines 351-363) -/

/-- The conversion `c = LCP[i]` of an `int_t` to `uint64_t`. -/
def toU64 (x : Int) : Nat := (x % 2 ^ 64).toNat

/-- The bound `lcp_limit = (1LL << (8*OutputGapLcp)) - 1`; the shift is defined
for the widths the pre-flight check lets through (`8*D ≤ 56`). -/
def lcp_limit (D : Nat) : Nat := 2 ^ (8 * D) - 1

/-- The object representation of a `uint64_t` on the (little-endian) host:
eight bytes, least significant first. -/
def u64Bytes (c : Nat) : List Nat := (List.range 8).map (fun k => c / 256 ^ k % 256)

/-- The bytes `fwrite(&c, OutputGapLcp, 1, f_lcp)` appends: the first `D` bytes
of the representation of `c`. -/
def fwriteU64 (c D : Nat) : List Nat := (u64Bytes c).take D

/-- The body of `for(i=1;i<len;i++)` run over the remaining indices, `out`
being what `f_lcp` has received so far.  `Except.error out` is the
`exit(EXIT_FAILURE)` taken when an entry exceeds `lcp_limit` (carrying what
had been written until then), `Except.ok out` the normal end of the loop. -/
def gapLcpFor (D : Nat) (LCP : List Int) : List Nat → List Nat → Except (List Nat) (List Nat)
  | [], out => Except.ok out
  | i :: is, out =>
    let c := toU64 (LCP.getD i 0)
    if c > lcp_limit D then Except.error out
    else gapLcpFor D LCP is (out ++ fwriteU64 c D)

/-- The block `if(OutputGapLcp){ ... }` for one chunk of length `len`. -/
def writeGapLcp (D : Nat) (LCP : List Int) (len : Nat) : Except (List Nat) (List Nat) :=
  gapLcpFor D LCP (List.range' 1 (len - 1)) []

/-- An LCP array as the engine delivers it: the entries the serializer reads
are common-prefix lengths, that is non-negative `int_t` values. -/
def lcpValues (LCP : List Int) (len : Nat) : Prop :=
  ∀ i, 1 ≤ i → i < len → 0 ≤ LCP.getD i 0 ∧ LCP.getD i 0 < 2 ^ 63

/-- The `D` low-order bytes of `v`, least significant first. -/
def leBytes (D v : Nat) : List Nat := (List.range D).map (fun k => v / 256 ^ k % 256)

/-- Modelled from the spec: the macro `bwt(i, s)` is defined in a header that
is not among the sources.  The specification gives its value as `s[i-1]`,
with a defined fallback for `i == 0`; the fallback symbol is the parameter
`fb`. -/
def bwt (fb : Nat) (p : Nat) (str : List Nat) : Nat :=
  if p = 0 then fb else str.getD (p - 1) 0

/-- The expression `bwt(SA[i], str)`.  `SA` holds the offsets `gsacak` stored
(it receives the array as `uint_t*`). -/
def bwtAt (fb : Nat) (SA str : List Nat) (i : Nat) : Nat := bwt fb (SA.getD i 0) str

/-- The loop `while(i+1<len && bwt(SA[i+1],str)==c && run<32){ run++; i++; }`
from the state `(i, run)`; it returns the final `(i, run)`.  The caller
starts it at `run = 1` with fuel 32, more than the 31 iterations `run<32`
allows. -/
def rleRun (fb : Nat) (SA str : List Nat) (len c : Nat) : Nat → Nat → Nat → Nat × Nat
  | 0, i, run => (i, run)
  | fuel + 1, i, run =>
    if i + 1 < len ∧ bwtAt fb SA str (i + 1) = c ∧ run < 32 then
      rleRun fb SA str len c fuel (i + 1) (run + 1)
    else (i, run)

/-- The loop `for(i=0; i<len; i++)` of the BWT output from index `i`.  `out`
lists the `fputc` calls made so far, each as the pair `(c, run)` of the symbol
read by `c = bwt(SA[i],str)` and the run it stands for (`run` is 1 when
`OutputBwt` is 1, where no run is scanned).  `none` is the failed
`assert(SA[i]==len-1)` at `i == 0`, or exhausted fuel. -/
def bwtLoop (OutputBwt fb : Nat) (SA str : List Nat) (len : Nat) :
    Nat → Nat → List (Nat × Nat) → Option (List (Nat × Nat))
  | 0, _, _ => none
  | fuel + 1, i, out =>
    if i < len then
      if i = 0 then
        if SA.getD i 0 = len - 1 then bwtLoop OutputBwt fb SA str len fuel (i + 1) out
        else none
      else
        let c := bwtAt fb SA str i
        if OutputBwt > 1 then
          let r := rleRun fb SA str len c 32 i 1
          bwtLoop OutputBwt fb SA str len fuel (r.1 + 1) (out ++ [(c, r.2)])
        else bwtLoop OutputBwt fb SA str len fuel (i + 1) (out ++ [(c, 1)])
    else some out

/-- The `fputc` calls of the whole loop for one chunk.  Every iteration
advances `i`, so `len + 1` units of fuel let the loop reach `i ≥ len`. -/
def bwtUnits (OutputBwt fb : Nat) (SA str : List Nat) (len : Nat) : Option (List (Nat × Nat)) :=
  bwtLoop OutputBwt fb SA str len (len + 1) 0 []

/-- The value `size_t len1 = len-1` written to the size stream. -/
def sizeRecord (len : Nat) : Nat := (len + 2 ^ 64 - 1) % 2 ^ 64

/-- The block `if(OutputBwt) { ... }` for one chunk: the bytes appended to
`f_bwt` and the records appended to `f_size`.  In RLE mode (`OutputBwt > 1`)
the byte of a call is `rle(c, run)`, otherwise it is `c`; the macro `rle`
comes from a header that is not among the sources and is a parameter. -/
def bwtStage (rle : Nat → Nat → Nat) (OutputBwt fb : Nat) (SA str : List Nat) (len : Nat) :
    Option (List Nat × List Nat) :=
  if OutputBwt = 0 then some ([], [])
  else
    (bwtUnits OutputBwt fb SA str len).map
      (fun us => (us.map (fun u => if OutputBwt > 1 then rle u.1 u.2 else u.1), [sizeRecord len]))

/-- The BWT column of a chunk: the symbols `bwt(SA[i], str)` for
`i = 1 .. len-1`. -/
def bwtColumn (fb : Nat) (SA str : List Nat) (len : Nat) : List Nat :=
  (List.range' 1 (len - 1)).map (bwtAt fb SA str)

/-- Expansion of a unit sequence: each `(symbol, run)` becomes `run` copies of
`symbol`. -/
def expandRuns (us : List (Nat × Nat)) : List Nat :=
  us.flatMap (fun u => List.replicate u.2 u.1)

/-- Greedy run-length coding of a list with runs capped at 32, carrying the
unit being built; used to describe what the RLE loop computes. -/
def rleAcc : Nat × Nat → List Nat → List (Nat × Nat)
  | u, [] => [u]
  | u, x :: xs =>
    if x = u.1 ∧ u.2 < 32 then rleAcc (u.1, u.2 + 1) xs else u :: rleAcc (x, 1) xs

/-- Greedy run-length coding of a list with runs capped at 32. -/
def rleList : List Nat → List (Nat × Nat)
  | [] => []
  | x :: xs => rleAcc (x, 1) xs

/-- Reading `str[z]` at a signed index: there is no symbol outside the buffer. -/
def strAt (str : List Nat) (z : Int) : Option Nat :=
  if 0 ≤ z then str.get? z.toNat else none

/-- The contract of a chunk's suffix array: a permutation of `[0, len)` whose
first entry is the anchor `len - 1`. -/
def isChunkSA (SA : List Nat) (len : Nat) : Prop :=
  SA.Perm (List.range len) ∧ SA.getD 0 0 = len - 1

instance (SA : List Nat) (len : Nat) : Decidable (isChunkSA SA len) := by
  unfold isChunkSA; infer_instance

/-- The buffer `banana\0` of the specification's first scenario. -/
def bananaStr : List Nat := [98, 97, 110, 97, 110, 97, 0]

/-- The suffix array of `banana\0`. -/
def bananaSA : List Nat := [6, 5, 3, 1, 0, 4, 2]

/-- A chunk holding one document of 40 equal symbols, its separator and the
terminator. -/
def fortyStr : List Nat := List.replicate 40 66 ++ [1, 0]

/-- The suffix array of `fortyStr`: every suffix is smaller than the one
starting before it. -/
def fortySA : List Nat := (List.range 42).reverse

/-! ## Pre-flight validation of the gap width (lines 88-89, 110-117) -/

/-- What the two checks on `OutputGapLcp` do: both failures print a message
and call `usage`, which ends the run with `exit(EXIT_FAILURE)`. -/
inductive GapCheck where
  | accepted
  | invalidSize
  | needs64
  deriving DecidableEq

/-- The checks on `OutputGapLcp = atoi(optarg)` of option `-g`, for a build
with `sizeof(int_t) = w`.  The second comparison is made in `size_t`. -/
def checkGapWidth (w : Nat) (OutputGapLcp : Int) : GapCheck :=
  if OutputGapLcp < 0 ∨ OutputGapLcp ≥ 8 then GapCheck.invalidSize
  else if toU64 OutputGapLcp > w then GapCheck.needs64
  else GapCheck.accepted

/-! ## Names of the raw SA output (lines 341-349) -/

/-- The name built by `snprintf(tmp,500,"%" PRIdN ".sa_lcp",b)`, respectively
`snprintf(tmp,500,"%" PRIdN ".sa",b)`. -/
def tmp (LCP_COMPUTE : Bool) (b : Nat) : String :=
  if LCP_COMPUTE then toString b ++ ".sa_lcp" else toString b ++ ".sa"

/-- The extension handed to the writer for chunk `b`: `lcp_array_write`
receives `tmp`, `suffix_array_write` receives the literal `"sa"`. -/
def saExt (LCP_COMPUTE : Bool) (b : Nat) : String :=
  if LCP_COMPUTE then tmp LCP_COMPUTE b else "sa"

/-- The artifact written for chunk `b`.  The writers are not among the
sources; `mkName` stands for the way they form a file name from the base
name and the extension they are given. -/
def saArtifact (mkName : String → String → String) (LCP_COMPUTE : Bool) (outfile : String)
    (b : Nat) : String :=
  mkName outfile (saExt LCP_COMPUTE b)

/-! ## Chunk size (lines 133-137)

Both quotients are computed in `double`: the dividend is converted to
`double`, divided by `sizeof(int_t)*arrays+1.0`, and the result is converted
to `size_t`.  A non-negative `double` is represented here by the rational
`num / den` it denotes. -/

/-- The integer nearest to `a / b`, ties going to the even one. -/
def roundNearestEven (a b : Nat) : Nat :=
  if 2 * (a % b) < b then a / b
  else if b < 2 * (a % b) then a / b + 1
  else if a / b % 2 = 0 then a / b else a / b + 1

/-- The least `k ≥ k₀` with `a < b * 2^(53+k)`, searched upwards. -/
def shiftDown (a b : Nat) : Nat → Nat → Nat
  | 0, k => k
  | fuel + 1, k => if a < b * 2 ^ (53 + k) then k else shiftDown a b fuel (k + 1)

/-- The least `k ≥ k₀` with `b * 2^52 ≤ a * 2^k`, searched upwards. -/
def shiftUp (a b : Nat) : Nat → Nat → Nat
  | 0, k => k
  | fuel + 1, k => if b * 2 ^ 52 ≤ a * 2 ^ k then k else shiftUp a b fuel (k + 1)

/-- Rounding of the rational `a / b` (`b > 0`) to the nearest binary64 number,
ties to even, as a fraction `(num, den)`: the quotient is scaled by the power
of two that brings it into `[2^52, 2^53)`, rounded to an integer significand,
and scaled back. -/
def roundDouble (a b : Nat) : Nat × Nat :=
  if a = 0 then (0, 1)
  else if a < b * 2 ^ 52 then
    let k := shiftUp a b (53 + b) 0
    (roundNearestEven (a * 2 ^ k) b, 2 ^ k)
  else
    let k := shiftDown a b (a + 1) 0
    (roundNearestEven a (b * 2 ^ k) * 2 ^ k, 1)

/-- The conversion `(double)n` of an unsigned integer (the result is an integer). -/
def toDouble (n : Nat) : Nat := (roundDouble n 1).1 / (roundDouble n 1).2

/-- The value `(size_t)(x / d)` for `double`s `x` and `d` holding the integers
`x` and `d`: the correctly rounded quotient, truncated. -/
def divToSize (x d : Nat) : Nat := (roundDouble x d).1 / (roundDouble x d).2

/-- The computation of `chunk_size`: the quotient of `I_MAX`, replaced by the
quotient of `RAM` under `if(RAM)`.  `w` is `sizeof(int_t)`, `I_MAX` the
constant of that name (both come from a header that is not among the
sources), `RAM` the ceiling set by option `-m` (0 when absent).  The divisor
is `(double)(sizeof(int_t)*arrays) + 1.0`. -/
def chunk_size (w I_MAX : Nat) (LCP_COMPUTE : Bool) (RAM : Nat) : Nat :=
  let arrays := if LCP_COMPUTE then 2 else 1
  let d := toDouble (toDouble (w * arrays) + 1)
  if RAM ≠ 0 then divToSize (toDouble RAM) d else divToSize (toDouble I_MAX) d

/-! ## Lemmas on the gap-LCP serializer -/

theorem toU64_of_nonneg {x : Int} (h0 : 0 ≤ x) (h1 : x < 2 ^ 63) : toU64 x = x.toNat := by
  unfold toU64
  rw [Int.emod_eq_of_lt h0 (by omega)]

theorem fwriteU64_eq_leBytes {D : Nat} (c : Nat) (hD : D ≤ 8) : fwriteU64 c D = leBytes D c := by
  unfold fwriteU64 u64Bytes leBytes
  rw [← List.map_take, List.take_range, Nat.min_eq_left hD]

theorem leBytes_length (D v : Nat) : (leBytes D v).length = D := by
  simp [leBytes]

/-- What the loop does on an index list: it writes the entries of the longest
prefix whose values fit, then either ends or exits at the first entry above
the bound. -/
theorem gapLcpFor_spec (D : Nat) (LCP : List Int) (is out : List Nat) :
    ∃ pre suf, is = pre ++ suf ∧ (∀ i ∈ pre, toU64 (LCP.getD i 0) ≤ lcp_limit D) ∧
      ((suf = [] ∧ gapLcpFor D LCP is out
          = Except.ok (out ++ pre.flatMap (fun i => fwriteU64 (toU64 (LCP.getD i 0)) D))) ∨
       (∃ i rest, suf = i :: rest ∧ lcp_limit D < toU64 (LCP.getD i 0) ∧ gapLcpFor D LCP is out
          = Except.error (out ++ pre.flatMap (fun i => fwriteU64 (toU64 (LCP.getD i 0)) D)))) := by
  induction is generalizing out with
  | nil => exact ⟨[], [], rfl, by simp, Or.inl ⟨rfl, by simp [gapLcpFor]⟩⟩
  | cons i is ih =>
    by_cases hc : lcp_limit D < toU64 (LCP.getD i 0)
    · exact ⟨[], i :: is, rfl, by simp, Or.inr ⟨i, is, rfl, hc, by simp only [gapLcpFor, gt_iff_lt, hc, if_true, List.flatMap_nil, List.append_nil]⟩⟩
    · obtain ⟨pre, suf, hsplit, hpre, hres⟩ := ih (out ++ fwriteU64 (toU64 (LCP.getD i 0)) D)
      refine ⟨i :: pre, suf, by simp [hsplit], ?_, ?_⟩
      · intro j hj
        rcases List.mem_cons.1 hj with rfl | hj
        · omega
        · exact hpre j hj
      · rcases hres with ⟨hs, hr⟩ | ⟨j, rest, hs, hj, hr⟩
        · left
          refine ⟨hs, ?_⟩
          simp only [gapLcpFor, gt_iff_lt, hc, if_false]
          rw [hr]; simp [List.append_assoc]
        · right
          refine ⟨j, rest, hs, hj, ?_⟩
          simp only [gapLcpFor, gt_iff_lt, hc, if_false]
          rw [hr]; simp [List.append_assoc]

theorem lcp_limit_cast (D : Nat) : ((lcp_limit D : Nat) : Int) = 2 ^ (8 * D) - 1 := by
  unfold lcp_limit
  have : 1 ≤ 2 ^ (8 * D) := Nat.one_le_two_pow
  rw [Nat.cast_sub this]; simp

theorem lcp_limit_lt_toU64 (D : Nat) {x : Int} (h0 : 0 ≤ x) (h1 : x < 2 ^ 63) :
    lcp_limit D < toU64 x ↔ (2 : Int) ^ (8 * D) - 1 < x := by
  rw [toU64_of_nonneg h0 h1, Int.lt_toNat, lcp_limit_cast]

theorem range'_initial {s n : Nat} {pre suf : List Nat} (h : List.range' s n = pre ++ suf) :
    pre = List.range' s pre.length ∧ pre.length ≤ n := by
  induction pre generalizing s n with
  | nil => simp
  | cons a pre ih =>
    cases n with
    | zero => simp at h
    | succ n =>
      rw [List.range'_succ, List.cons_append, List.cons.injEq] at h
      obtain ⟨ha, ht⟩ := h
      obtain ⟨h1, h2⟩ := ih ht
      refine ⟨?_, by simpa using h2⟩
      rw [List.length_cons, List.range'_succ, ← h1, ha]

theorem flatMap_leBytes_length (D : Nat) (v : Nat → Nat) (is : List Nat) :
    (is.flatMap (fun i => leBytes D (v i))).length = is.length * D := by
  induction is with
  | nil => simp
  | cons i is ih => simp [List.flatMap_cons, leBytes_length, ih]; ring

theorem flatMap_congr_mem {α β : Type} (l : List α) (f g : α → List β)
    (h : ∀ a ∈ l, f a = g a) : l.flatMap f = l.flatMap g := by
  induction l with
  | nil => rfl
  | cons a l ih =>
    simp only [List.flatMap_cons]
    rw [h a (List.mem_cons_self _ _), ih (fun b hb => h b (List.mem_cons_of_mem _ hb))]

/-- The serializer on a well-formed LCP array, in closed form: the entries of
`1 .. j` are written, and the loop either reaches the end or exits at an entry
above the bound. -/
theorem writeGapLcp_spec (D len : Nat) (LCP : List Int) (hD : D ≤ 8) (hv : lcpValues LCP len) :
    ∃ j, j ≤ len - 1 ∧ (∀ i, 1 ≤ i → i ≤ j → LCP.getD i 0 ≤ 2 ^ (8 * D) - 1) ∧
      ((j = len - 1 ∧ writeGapLcp D LCP len
          = Except.ok ((List.range' 1 j).flatMap (fun i => leBytes D (LCP.getD i 0).toNat))) ∨
       (∃ i, 1 ≤ i ∧ i < len ∧ (2 : Int) ^ (8 * D) - 1 < LCP.getD i 0 ∧ writeGapLcp D LCP len
          = Except.error ((List.range' 1 j).flatMap (fun i => leBytes D (LCP.getD i 0).toNat)))) := by
  obtain ⟨pre, suf, hsplit, hpre, hres⟩ := gapLcpFor_spec D LCP (List.range' 1 (len - 1)) []
  obtain ⟨hp, hle⟩ := range'_initial hsplit
  have hmem : ∀ i, i ∈ List.range' 1 (len - 1) → 1 ≤ i ∧ i < len := by
    intro i hi
    rw [List.mem_range'_1] at hi
    omega
  have hin : ∀ i ∈ pre, 1 ≤ i ∧ i < len := fun i hi =>
    hmem i (by rw [hsplit]; exact List.mem_append_left _ hi)
  have hbytes : pre.flatMap (fun i => fwriteU64 (toU64 (LCP.getD i 0)) D)
      = (List.range' 1 pre.length).flatMap (fun i => leBytes D (LCP.getD i 0).toNat) := by
    rw [← hp]
    apply flatMap_congr_mem
    intro i hi
    obtain ⟨h1, h2⟩ := hin i hi
    rw [fwriteU64_eq_leBytes _ hD, toU64_of_nonneg (hv i h1 h2).1 (hv i h1 h2).2]
  refine ⟨pre.length, hle, ?_, ?_⟩
  · intro i h1 h2
    have hi : i ∈ pre := by
      rw [hp, List.mem_range'_1]; omega
    obtain ⟨_, h3⟩ := hin i hi
    have := hpre i hi
    by_contra hcon
    have := (lcp_limit_lt_toU64 D (hv i h1 h3).1 (hv i h1 h3).2).2 (by omega)
    omega
  · rcases hres with ⟨hs, hr⟩ | ⟨i, rest, hs, hi, hr⟩
    · left
      subst hs
      constructor
      · have := congrArg List.length hsplit
        simpa using this.symm
      · rw [List.nil_append, hbytes] at hr; exact hr
    · right
      obtain ⟨h1, h2⟩ := hmem i (by rw [hsplit, hs]; simp)
      refine ⟨i, h1, h2, (lcp_limit_lt_toU64 D (hv i h1 h2).1 (hv i h1 h2).2).1 hi, ?_⟩
      rw [List.nil_append, hbytes] at hr; exact hr

theorem flatMap_fixed_getD (D : Nat) (f : Nat → List Nat) (hf : ∀ i, (f i).length = D)
    (is : List Nat) (j k : Nat) (hj : j < is.length) (hk : k < D) :
    (is.flatMap f).getD (j * D + k) 0 = (f (is.getD j 0)).getD k 0 := by
  induction is generalizing j with
  | nil => simp at hj
  | cons i is ih =>
    rw [List.flatMap_cons]
    cases j with
    | zero =>
      have h1 : 0 * D + k < (f i).length := by rw [hf]; omega
      rw [List.getD_append _ _ _ _ h1]
      simp
    | succ j =>
      have h1 : (f i).length ≤ (j + 1) * D + k := by
        rw [hf, Nat.add_mul]; omega
      rw [List.getD_append_right _ _ _ _ h1, hf]
      have h2 : (j + 1) * D + k - D = j * D + k := by
        rw [Nat.add_mul]; omega
      rw [h2, ih j (by simpa using hj)]
      simp

/-! ## Lemmas on the BWT output loop -/

theorem range'_succ_left (s n : Nat) (h : 0 < n) :
    List.range' s n = s :: List.range' (s + 1) (n - 1) := by
  obtain ⟨m, rfl⟩ : ∃ m, n = m + 1 := ⟨n - 1, by omega⟩
  rw [List.range'_succ]; simp

/-- The symbols `bwt(SA[j], str)` for `j = i .. len-1`. -/
theorem symsFrom_cons (fb : Nat) (SA str : List Nat) (len i : Nat) (h : i < len) :
    (List.range' i (len - i)).map (bwtAt fb SA str)
      = bwtAt fb SA str i :: (List.range' (i + 1) (len - (i + 1))).map (bwtAt fb SA str) := by
  rw [range'_succ_left i (len - i) (by omega), List.map_cons]
  congr 2

/-- The inner loop against `rleAcc`: scanning from `(i, run)` builds the unit
that `rleAcc` builds on the symbols after index `i`. -/
theorem rleRun_spec (fb : Nat) (SA str : List Nat) (len c : Nat) (fuel i run : Nat)
    (hi : i < len) (hf : 32 - run < fuel) (hrun : run ≤ 32) :
    i ≤ (rleRun fb SA str len c fuel i run).1 ∧ (rleRun fb SA str len c fuel i run).1 < len ∧
    rleAcc (c, run) ((List.range' (i + 1) (len - (i + 1))).map (bwtAt fb SA str))
      = (c, (rleRun fb SA str len c fuel i run).2) ::
          rleList ((List.range' ((rleRun fb SA str len c fuel i run).1 + 1)
            (len - ((rleRun fb SA str len c fuel i run).1 + 1))).map (bwtAt fb SA str)) := by
  induction fuel generalizing i run with
  | zero => omega
  | succ fuel ih =>
    by_cases hcond : i + 1 < len ∧ bwtAt fb SA str (i + 1) = c ∧ run < 32
    · have hstep : rleRun fb SA str len c (fuel + 1) i run
          = rleRun fb SA str len c fuel (i + 1) (run + 1) := by
        simp only [rleRun, hcond, and_self, if_true]
      obtain ⟨h1, h2, h3⟩ := ih (i + 1) (run + 1) hcond.1 (by omega) (by omega)
      rw [hstep]
      refine ⟨by omega, h2, ?_⟩
      rw [symsFrom_cons fb SA str len (i + 1) hcond.1]
      have : rleAcc (c, run) (bwtAt fb SA str (i + 1) ::
            (List.range' (i + 1 + 1) (len - (i + 1 + 1))).map (bwtAt fb SA str))
          = rleAcc (c, run + 1)
              ((List.range' (i + 1 + 1) (len - (i + 1 + 1))).map (bwtAt fb SA str)) := by
        simp only [rleAcc, hcond.2.1, hcond.2.2, and_self, if_true]
      rw [this]
      exact h3
    · have hstep : rleRun fb SA str len c (fuel + 1) i run = (i, run) := by
        simp only [rleRun, hcond, if_false]
      rw [hstep]
      refine ⟨le_refl _, hi, ?_⟩
      by_cases hlt : i + 1 < len
      · rw [symsFrom_cons fb SA str len (i + 1) hlt]
        have hne : ¬ (bwtAt fb SA str (i + 1) = c ∧ run < 32) := fun h => hcond ⟨hlt, h⟩
        simp only [rleAcc, hne, if_false, rleList]
      · have : len - (i + 1) = 0 := by omega
        simp only [this, List.range'_zero, List.map_nil, rleAcc, rleList]

theorem rleList_cons (x : Nat) (xs : List Nat) : rleList (x :: xs) = rleAcc (x, 1) xs := rfl

/-- The outer loop in RLE mode, from an index `i ≥ 1`: it appends the greedy
run-length coding of the symbols of `i .. len-1`. -/
theorem bwtLoop_rle (m fb : Nat) (SA str : List Nat) (len : Nat) (hm : 1 < m)
    (fuel i : Nat) (out : List (Nat × Nat)) (hi : 1 ≤ i) (hf : len - i < fuel) :
    bwtLoop m fb SA str len fuel i out
      = some (out ++ rleList ((List.range' i (len - i)).map (bwtAt fb SA str))) := by
  induction fuel generalizing i out with
  | zero => omega
  | succ fuel ih =>
    by_cases hlt : i < len
    · have hi0 : i ≠ 0 := by omega
      obtain ⟨h1, h2, h3⟩ := rleRun_spec fb SA str len (bwtAt fb SA str i) 32 i 1 hlt
        (by omega) (by omega)
      have hstep : bwtLoop m fb SA str len (fuel + 1) i out
          = bwtLoop m fb SA str len fuel
              ((rleRun fb SA str len (bwtAt fb SA str i) 32 i 1).1 + 1)
              (out ++ [(bwtAt fb SA str i, (rleRun fb SA str len (bwtAt fb SA str i) 32 i 1).2)]) := by
        simp only [bwtLoop, hlt, hi0, if_true, if_false, gt_iff_lt, hm]
      rw [hstep, ih _ _ (by omega) (by omega), symsFrom_cons fb SA str len i hlt]
      rw [rleList_cons, h3, List.append_assoc, List.singleton_append]
    · have hz : len - i = 0 := by omega
      simp only [bwtLoop, hlt, if_false, hz, List.range'_zero, List.map_nil, rleList,
        List.append_nil]

/-- The outer loop in plain mode, from an index `i ≥ 1`: one call per index. -/
theorem bwtLoop_plain (fb : Nat) (SA str : List Nat) (len : Nat)
    (fuel i : Nat) (out : List (Nat × Nat)) (hi : 1 ≤ i) (hf : len - i < fuel) :
    bwtLoop 1 fb SA str len fuel i out
      = some (out ++ (List.range' i (len - i)).map (fun j => (bwtAt fb SA str j, 1))) := by
  induction fuel generalizing i out with
  | zero => omega
  | succ fuel ih =>
    by_cases hlt : i < len
    · have hi0 : i ≠ 0 := by omega
      have hstep : bwtLoop 1 fb SA str len (fuel + 1) i out
          = bwtLoop 1 fb SA str len fuel (i + 1) (out ++ [(bwtAt fb SA str i, 1)]) := by
        simp only [bwtLoop, hlt, hi0, if_true, if_false, gt_iff_lt, lt_irrefl]
      rw [hstep, ih _ _ (by omega) (by omega), range'_succ_left i (len - i) (by omega),
        List.map_cons, List.append_assoc, List.singleton_append]
      congr 4
    · have hz : len - i = 0 := by omega
      simp only [bwtLoop, hlt, if_false, hz, List.range'_zero, List.map_nil, List.append_nil]

/-- The first iteration: the assertion on `SA[0]`. -/
theorem bwtUnits_eq (m fb : Nat) (SA str : List Nat) (len : Nat) :
    bwtUnits m fb SA str len
      = if 0 < len then
          if SA.getD 0 0 = len - 1 then bwtLoop m fb SA str len len 1 [] else none
        else some [] := by
  unfold bwtUnits
  by_cases h : 0 < len
  · simp only [bwtLoop, h, if_true]
  · simp only [bwtLoop, h, if_false]

/-- RLE mode in closed form. -/
theorem bwtUnits_rle (m fb : Nat) (SA str : List Nat) (len : Nat) (hm : 1 < m)
    (ha : SA.getD 0 0 = len - 1) :
    bwtUnits m fb SA str len = some (rleList (bwtColumn fb SA str len)) := by
  rw [bwtUnits_eq]
  by_cases h : 0 < len
  · rw [if_pos h, if_pos ha, bwtLoop_rle m fb SA str len hm len 1 [] (le_refl _) (by omega)]
    rfl
  · have : len = 0 := by omega
    subst this
    rfl

/-- Plain mode in closed form. -/
theorem bwtUnits_plain (fb : Nat) (SA str : List Nat) (len : Nat)
    (ha : SA.getD 0 0 = len - 1) :
    bwtUnits 1 fb SA str len = some ((bwtColumn fb SA str len).map (fun c => (c, 1))) := by
  rw [bwtUnits_eq]
  by_cases h : 0 < len
  · rw [if_pos h, if_pos ha, bwtLoop_plain fb SA str len len 1 [] (le_refl _) (by omega)]
    simp [bwtColumn]
  · have : len = 0 := by omega
    subst this
    rfl

/-- The loop aborts exactly on a failed assertion. -/
theorem bwtUnits_eq_none (m fb : Nat) (SA str : List Nat) (len : Nat) (hm : 1 ≤ m) :
    bwtUnits m fb SA str len = none ↔ 0 < len ∧ SA.getD 0 0 ≠ len - 1 := by
  by_cases ha : SA.getD 0 0 = len - 1
  · have hsome : ∃ u, bwtUnits m fb SA str len = some u := by
      rcases Nat.lt_or_ge 1 m with hm1 | hm1
      · exact ⟨_, bwtUnits_rle m fb SA str len hm1 ha⟩
      · have : m = 1 := by omega
        subst this
        exact ⟨_, bwtUnits_plain fb SA str len ha⟩
    obtain ⟨u, hu⟩ := hsome
    rw [hu]
    constructor
    · intro h; cases h
    · rintro ⟨_, hne⟩; exact absurd ha hne
  · rw [bwtUnits_eq]
    by_cases h : 0 < len
    · rw [if_pos h, if_neg ha]
      exact ⟨fun _ => ⟨h, ha⟩, fun _ => rfl⟩
    · rw [if_neg h]
      constructor
      · intro h'; cases h'
      · rintro ⟨h', _⟩; exact absurd h' h

/-! ## Properties of greedy run-length coding -/

theorem expandRuns_append (a b : List (Nat × Nat)) :
    expandRuns (a ++ b) = expandRuns a ++ expandRuns b := by
  simp [expandRuns, List.flatMap_append]

theorem expandRuns_cons (u : Nat × Nat) (us : List (Nat × Nat)) :
    expandRuns (u :: us) = List.replicate u.2 u.1 ++ expandRuns us := by
  simp [expandRuns, List.flatMap_cons]

theorem expandRuns_rleAcc (u : Nat × Nat) (xs : List Nat) :
    expandRuns (rleAcc u xs) = List.replicate u.2 u.1 ++ xs := by
  induction xs generalizing u with
  | nil => simp [rleAcc, expandRuns]
  | cons x xs ih =>
    by_cases hc : x = u.1 ∧ u.2 < 32
    · simp only [rleAcc, hc, and_self, if_true]
      rw [ih]
      simp [List.replicate_succ', hc.1]
    · simp only [rleAcc, hc, if_false]
      rw [expandRuns_cons, ih]
      simp

theorem expandRuns_rleList (xs : List Nat) : expandRuns (rleList xs) = xs := by
  cases xs with
  | nil => rfl
  | cons x xs => rw [rleList, expandRuns_rleAcc]; rfl

theorem sum_runs (us : List (Nat × Nat)) :
    (us.map (fun u => u.2)).sum = (expandRuns us).length := by
  induction us with
  | nil => rfl
  | cons u us ih => rw [expandRuns_cons]; simp [ih]

theorem rleAcc_runs (u : Nat × Nat) (xs : List Nat) (h1 : 1 ≤ u.2) (h2 : u.2 ≤ 32) :
    ∀ e ∈ rleAcc u xs, 1 ≤ e.2 ∧ e.2 ≤ 32 := by
  induction xs generalizing u with
  | nil =>
    intro e he
    simp only [rleAcc, List.mem_singleton] at he
    subst he; exact ⟨h1, h2⟩
  | cons x xs ih =>
    by_cases hc : x = u.1 ∧ u.2 < 32
    · simp only [rleAcc, hc, and_self, if_true]
      exact ih (u.1, u.2 + 1) (by simp) (by simp; omega)
    · simp only [rleAcc, hc, if_false]
      intro e he
      rcases List.mem_cons.1 he with rfl | he
      · exact ⟨h1, h2⟩
      · exact ih (x, 1) (by simp) (by simp) e he

theorem rleList_runs (xs : List Nat) : ∀ e ∈ rleList xs, 1 ≤ e.2 ∧ e.2 ≤ 32 := by
  cases xs with
  | nil => intro e he; simp [rleList] at he
  | cons x xs => exact rleAcc_runs (x, 1) xs (by simp) (by simp)

theorem rleAcc_head (u : Nat × Nat) (xs : List Nat) :
    ∃ r t, rleAcc u xs = (u.1, r) :: t := by
  induction xs generalizing u with
  | nil => exact ⟨u.2, [], rfl⟩
  | cons x xs ih =>
    by_cases hc : x = u.1 ∧ u.2 < 32
    · simp only [rleAcc, hc, and_self, if_true]
      exact ih (u.1, u.2 + 1)
    · simp only [rleAcc, hc, if_false]
      exact ⟨u.2, _, rfl⟩

theorem rleAcc_chain (u : Nat × Nat) (xs : List Nat) :
    List.Chain' (fun a b : Nat × Nat => a.2 < 32 → b.1 ≠ a.1) (rleAcc u xs) := by
  induction xs generalizing u with
  | nil => simp [rleAcc]
  | cons x xs ih =>
    by_cases hc : x = u.1 ∧ u.2 < 32
    · simp only [rleAcc, hc, and_self, if_true]
      exact ih (u.1, u.2 + 1)
    · simp only [rleAcc, hc, if_false]
      obtain ⟨r, t, hrt⟩ := rleAcc_head (x, 1) xs
      have := ih (x, 1)
      rw [hrt] at this ⊢
      refine List.Chain'.cons ?_ this
      intro hlt hx
      exact hc ⟨hx, hlt⟩

theorem rleList_chain (xs : List Nat) :
    List.Chain' (fun a b : Nat × Nat => a.2 < 32 → b.1 ≠ a.1) (rleList xs) := by
  cases xs with
  | nil => simp [rleList]
  | cons x xs => exact rleAcc_chain (x, 1) xs

theorem rleAcc_cons_same (u : Nat × Nat) (x : Nat) (xs : List Nat) (h : x = u.1 ∧ u.2 < 32) :
    rleAcc u (x :: xs) = rleAcc (u.1, u.2 + 1) xs := by
  simp only [rleAcc, h, and_self, if_true]

theorem rleAcc_cons_other (u : Nat × Nat) (x : Nat) (xs : List Nat)
    (h : ¬ (x = u.1 ∧ u.2 < 32)) :
    rleAcc u (x :: xs) = u :: rleAcc (x, 1) xs := by
  simp only [rleAcc, h, if_false]

theorem rleAcc_append (u : Nat × Nat) (xs : List Nat) (y : Nat) (ys : List Nat)
    (h : xs.getLastD u.1 ≠ y) :
    rleAcc u (xs ++ y :: ys) = rleAcc u xs ++ rleAcc (y, 1) ys := by
  induction xs generalizing u with
  | nil =>
    have hy : ¬ (y = u.1 ∧ u.2 < 32) := fun hc => h (by simp [hc.1])
    rw [List.nil_append, rleAcc_cons_other u y ys hy]
    rfl
  | cons x xs ih =>
    rw [List.getLastD_cons] at h
    rw [List.cons_append]
    by_cases hc : x = u.1 ∧ u.2 < 32
    · rw [rleAcc_cons_same u x _ hc, rleAcc_cons_same u x _ hc]
      exact ih (u.1, u.2 + 1) (by rw [← hc.1]; exact h)
    · rw [rleAcc_cons_other u x _ hc, rleAcc_cons_other u x _ hc, ih (x, 1) h]
      rfl

theorem rleAcc_replicate (c r k : Nat) (post : List Nat) (h : r + k ≤ 32) :
    rleAcc (c, r) (List.replicate k c ++ post) = rleAcc (c, r + k) post := by
  induction k generalizing r with
  | zero => rfl
  | succ k ih =>
    have hr : r < 32 := by omega
    rw [List.replicate_succ, List.cons_append, rleAcc_cons_same (c, r) c _ ⟨rfl, hr⟩,
      ih (r + 1) (by omega)]
    congr 2
    omega

/-- A block of 40 equal symbols that is not continued to its right is coded
as a unit of 32 followed by a unit of 8. -/
theorem rleAcc_forty (c : Nat) (post : List Nat) (hpost : post.head? ≠ some c) :
    rleAcc (c, 1) (List.replicate 39 c ++ post) = (c, 32) :: (c, 8) :: rleList post := by
  have e1 : List.replicate 39 c ++ post
      = List.replicate 31 c ++ (c :: (List.replicate 7 c ++ post)) := by
    rw [show (39 : Nat) = 31 + (1 + 7) from rfl, List.replicate_add, List.replicate_add]
    simp
  rw [e1, rleAcc_replicate c 1 31 _ (by omega),
    rleAcc_cons_other (c, 1 + 31) c _ (by simp), rleAcc_replicate c 1 7 _ (by omega)]
  cases post with
  | nil => rfl
  | cons y ys =>
    have hy : ¬ (y = c ∧ 1 + 7 < 32) := by
      intro hc
      exact hpost (by simp [hc.1])
    rw [rleAcc_cons_other (c, 1 + 7) y ys hy]
    rfl

theorem rleList_forty (pre post : List Nat) (c : Nat)
    (hpre : pre.getLast? ≠ some c) (hpost : post.head? ≠ some c) :
    rleList (pre ++ List.replicate 40 c ++ post)
      = rleList pre ++ [(c, 32), (c, 8)] ++ rleList post := by
  have e : List.replicate 40 c = c :: List.replicate 39 c := rfl
  cases pre with
  | nil =>
    rw [e, List.nil_append, List.cons_append, rleList_cons, rleAcc_forty c post hpost]
    rfl
  | cons p ps =>
    have hl : ps.getLastD p ≠ c := by
      intro h
      apply hpre
      rw [List.getLast?_cons, ← List.getLastD_eq_getLast?, h]
    rw [e, List.append_assoc, List.cons_append, rleList_cons, List.cons_append,
      rleAcc_append (p, 1) ps c _ hl, rleAcc_forty c post hpost, rleList_cons]
    simp

/-- The two modes abort together, and the RLE units expand to the plain
sequence, whatever the arrays hold. -/
theorem bwtUnits_expand (m fb : Nat) (SA str : List Nat) (len : Nat) (hm : 1 < m) :
    (bwtUnits m fb SA str len).map expandRuns
      = (bwtUnits 1 fb SA str len).map (List.map Prod.fst) := by
  by_cases ha : SA.getD 0 0 = len - 1
  · rw [bwtUnits_rle m fb SA str len hm ha, bwtUnits_plain fb SA str len ha]
    simp only [Option.map_some', expandRuns_rleList, List.map_map]
    congr 1
    simp [Function.comp_def]
  · by_cases h0 : 0 < len
    · rw [(bwtUnits_eq_none m fb SA str len (by omega)).2 ⟨h0, ha⟩,
        (bwtUnits_eq_none 1 fb SA str len (le_refl _)).2 ⟨h0, ha⟩]
      rfl
    · have : len = 0 := by omega
      subst this
      rfl

/-! ## Lemmas on the chunk-size computation -/

theorem roundNearestEven_ge (a b : Nat) : a / b ≤ roundNearestEven a b := by
  unfold roundNearestEven
  split_ifs <;> omega

theorem roundNearestEven_le (a b : Nat) : roundNearestEven a b ≤ a / b + 1 := by
  unfold roundNearestEven
  split_ifs <;> omega

/-- The upward search finds a shift that normalises the quotient as soon as
one lies within the fuel. -/
theorem shiftUp_spec (a b : Nat) (fuel k0 k1 : Nat) (h0 : k0 ≤ k1) (h1 : k1 < k0 + fuel)
    (hk : b * 2 ^ 52 ≤ a * 2 ^ k1) :
    b * 2 ^ 52 ≤ a * 2 ^ (shiftUp a b fuel k0) := by
  induction fuel generalizing k0 with
  | zero => omega
  | succ fuel ih =>
    by_cases hc : b * 2 ^ 52 ≤ a * 2 ^ k0
    · simp only [shiftUp, hc, if_true]
    · simp only [shiftUp, hc, if_false]
      have hne : k0 ≠ k1 := by
        rintro rfl
        exact hc hk
      exact ih (k0 + 1) (by omega) (by omega)

/-- Below `2^51` the rounded quotient truncates to the integer quotient. -/
theorem divToSize_eq (x d : Nat) (hd : 0 < d) (hx : x < 2 ^ 51) : divToSize x d = x / d := by
  unfold divToSize roundDouble
  by_cases h0 : x = 0
  · subst h0
    simp
  · have hlt : x < d * 2 ^ 52 := by
      have : (2 : Nat) ^ 51 ≤ d * 2 ^ 52 := by
        calc (2 : Nat) ^ 51 ≤ 1 * 2 ^ 52 := by norm_num
          _ ≤ d * 2 ^ 52 := Nat.mul_le_mul_right _ hd
      omega
    simp only [h0, if_false, hlt, if_true]
    generalize hk : shiftUp x d (53 + d) 0 = k
    have hnorm : d * 2 ^ 52 ≤ x * 2 ^ k := by
      rw [← hk]
      apply shiftUp_spec x d (53 + d) 0 (52 + d) (by omega) (by omega)
      have h1 : d ≤ 2 ^ d := Nat.le_of_lt (Nat.lt_two_pow d)
      have h2 : 1 ≤ x := by omega
      calc d * 2 ^ 52 ≤ 2 ^ d * 2 ^ 52 := Nat.mul_le_mul_right _ h1
        _ = 2 ^ (52 + d) := by rw [pow_add, Nat.mul_comm]
        _ = 1 * 2 ^ (52 + d) := by rw [Nat.one_mul]
        _ ≤ x * 2 ^ (52 + d) := Nat.mul_le_mul_right _ h2
    have hpos : 0 < 2 ^ k := Nat.two_pow_pos k
    have hdk : d < 2 ^ k := by
      by_contra hcon
      have hle : 2 ^ k ≤ d := by omega
      have h1 : x * 2 ^ k < 2 ^ 51 * 2 ^ k := Nat.mul_lt_mul_of_pos_right hx hpos
      have h2 : 2 ^ 51 * 2 ^ k ≤ 2 ^ 51 * d := Nat.mul_le_mul_left _ hle
      have h3 : 2 ^ 51 * d ≤ d * 2 ^ 52 := by
        rw [Nat.mul_comm]
        exact Nat.mul_le_mul_left _ (by norm_num)
      omega
    have hlo : x / d * 2 ^ k ≤ roundNearestEven (x * 2 ^ k) d := by
      refine le_trans ?_ (roundNearestEven_ge _ _)
      rw [Nat.le_div_iff_mul_le hd]
      calc x / d * 2 ^ k * d = x / d * d * 2 ^ k := by ring
        _ ≤ x * 2 ^ k := Nat.mul_le_mul_right _ (Nat.div_mul_le_self x d)
    have hhi : roundNearestEven (x * 2 ^ k) d < (x / d + 1) * 2 ^ k := by
      have hq : x * 2 ^ k / d + 1 < (x / d + 1) * 2 ^ k := by
        have hx1 : x + 1 ≤ (x / d + 1) * d := by
          have := Nat.lt_div_mul_add hd (a := x)
          calc x + 1 ≤ x / d * d + d := this
            _ = (x / d + 1) * d := by ring
        have key : x * 2 ^ k < ((x / d + 1) * 2 ^ k - 1) * d := by
          have e1 : ((x / d + 1) * 2 ^ k - 1) * d = (x / d + 1) * d * 2 ^ k - d := by
            rw [Nat.sub_mul, Nat.one_mul]
            congr 1
            ring
          have e2 : (x + 1) * 2 ^ k ≤ (x / d + 1) * d * 2 ^ k := Nat.mul_le_mul_right _ hx1
          have e3 : (x + 1) * 2 ^ k = x * 2 ^ k + 2 ^ k := by ring
          rw [e1]
          omega
        have hdiv := (Nat.div_lt_iff_lt_mul hd).2 key
        generalize (x / d + 1) * 2 ^ k = T at hdiv ⊢
        generalize x * 2 ^ k / d = Q at hdiv ⊢
        omega
      exact lt_of_le_of_lt (roundNearestEven_le _ _) hq
    exact Nat.div_eq_of_lt_le hlo hhi

theorem toDouble_eq (n : Nat) (h : n < 2 ^ 51) : toDouble n = n := by
  have := divToSize_eq n 1 (by norm_num) h
  rw [Nat.div_one] at this
  exact this

/-- The divisor `sizeof(int_t)*arrays+1.0` is exact. -/
theorem chunk_size_eq (w I_MAX : Nat) (LCP_COMPUTE : Bool) (RAM : Nat) (hw : w ≤ 8) :
    chunk_size w I_MAX LCP_COMPUTE RAM
      = if RAM ≠ 0 then divToSize (toDouble RAM) (w * (if LCP_COMPUTE then 2 else 1) + 1)
        else divToSize (toDouble I_MAX) (w * (if LCP_COMPUTE then 2 else 1) + 1) := by
  have ha : (if LCP_COMPUTE then 2 else 1) ≤ 2 := by split_ifs <;> omega
  have h1 : w * (if LCP_COMPUTE then 2 else 1) ≤ 16 := by
    calc w * (if LCP_COMPUTE then 2 else 1) ≤ 8 * 2 := Nat.mul_le_mul hw ha
      _ = 16 := rfl
  have h2 : toDouble (w * (if LCP_COMPUTE then 2 else 1)) = w * (if LCP_COMPUTE then 2 else 1) :=
    toDouble_eq _ (lt_of_le_of_lt h1 (by norm_num))
  have h3 : toDouble (w * (if LCP_COMPUTE then 2 else 1) + 1)
      = w * (if LCP_COMPUTE then 2 else 1) + 1 :=
    toDouble_eq _ (lt_of_le_of_lt (Nat.succ_le_succ h1) (by norm_num))
  unfold chunk_size
  simp only [h2, h3]

theorem shiftUp_min (a b : Nat) (fuel k0 j : Nat) (h0 : k0 ≤ j)
    (hj : j < shiftUp a b fuel k0) : ¬ b * 2 ^ 52 ≤ a * 2 ^ j := by
  induction fuel generalizing k0 with
  | zero => simp only [shiftUp] at hj; omega
  | succ fuel ih =>
    by_cases hc : b * 2 ^ 52 ≤ a * 2 ^ k0
    · simp only [shiftUp, hc, if_true] at hj; omega
    · simp only [shiftUp, hc, if_false] at hj
      by_cases hjk : j = k0
      · rw [hjk]; exact hc
      · exact ih (k0 + 1) (by omega) hj

theorem shiftDown_spec (a b : Nat) (fuel k0 k1 : Nat) (h0 : k0 ≤ k1) (h1 : k1 < k0 + fuel)
    (hk : a < b * 2 ^ (53 + k1)) :
    a < b * 2 ^ (53 + shiftDown a b fuel k0) := by
  induction fuel generalizing k0 with
  | zero => omega
  | succ fuel ih =>
    by_cases hc : a < b * 2 ^ (53 + k0)
    · simp only [shiftDown, hc, if_true]
    · simp only [shiftDown, hc, if_false]
      have hne : k0 ≠ k1 := by
        rintro rfl
        exact hc hk
      exact ih (k0 + 1) (by omega) (by omega)

theorem shiftDown_min (a b : Nat) (fuel k0 j : Nat) (h0 : k0 ≤ j)
    (hj : j < shiftDown a b fuel k0) : ¬ a < b * 2 ^ (53 + j) := by
  induction fuel generalizing k0 with
  | zero => simp only [shiftDown] at hj; omega
  | succ fuel ih =>
    by_cases hc : a < b * 2 ^ (53 + k0)
    · simp only [shiftDown, hc, if_true] at hj; omega
    · simp only [shiftDown, hc, if_false] at hj
      by_cases hjk : j = k0
      · rw [hjk]; exact hc
      · exact ih (k0 + 1) (by omega) hj

/-- The shifts chosen by `roundDouble` normalise the quotient: scaled by the
power of two, `a / b` lies in `[2^52, 2^53)`, so that the rounded integer is a
53-bit significand (or `2^53`, the next power of two). -/
theorem roundDouble_normalised (a b : Nat) (ha : 0 < a) (hb : 0 < b) :
    (a < b * 2 ^ 52 →
      b * 2 ^ 52 ≤ a * 2 ^ (shiftUp a b (53 + b) 0) ∧
      a * 2 ^ (shiftUp a b (53 + b) 0) < b * 2 ^ 53) ∧
    (b * 2 ^ 52 ≤ a →
      b * 2 ^ 52 * 2 ^ (shiftDown a b (a + 1) 0) ≤ a ∧
      a < b * 2 ^ 53 * 2 ^ (shiftDown a b (a + 1) 0)) := by
  constructor
  · intro hlt
    have hex : b * 2 ^ 52 ≤ a * 2 ^ (52 + b) := by
      have h1 : b ≤ 2 ^ b := Nat.le_of_lt (Nat.lt_two_pow b)
      calc b * 2 ^ 52 ≤ 2 ^ b * 2 ^ 52 := Nat.mul_le_mul_right _ h1
        _ = 2 ^ (52 + b) := by rw [pow_add, Nat.mul_comm]
        _ = 1 * 2 ^ (52 + b) := by rw [Nat.one_mul]
        _ ≤ a * 2 ^ (52 + b) := Nat.mul_le_mul_right _ ha
    have hspec := shiftUp_spec a b (53 + b) 0 (52 + b) (by omega) (by omega) hex
    refine ⟨hspec, ?_⟩
    generalize hk : shiftUp a b (53 + b) 0 = k at hspec
    cases k with
    | zero => simp at hspec; omega
    | succ k =>
      have hmin := shiftUp_min a b (53 + b) 0 k (by omega) (by rw [hk]; omega)
      have e1 : a * 2 ^ (k + 1) = 2 * (a * 2 ^ k) := by ring
      have e2 : b * 2 ^ 53 = 2 * (b * 2 ^ 52) := by ring
      rw [e1, e2]
      omega
  · intro hge
    have hex : a < b * 2 ^ (53 + a) := by
      have h1 : a < 2 ^ a := Nat.lt_two_pow a
      have h2 : 2 ^ a ≤ 2 ^ (53 + a) := Nat.pow_le_pow_right (by norm_num) (by omega)
      have h3 : 1 * 2 ^ (53 + a) ≤ b * 2 ^ (53 + a) := Nat.mul_le_mul_right _ hb
      omega
    have hspec := shiftDown_spec a b (a + 1) 0 a (by omega) (by omega) hex
    generalize hk : shiftDown a b (a + 1) 0 = k at hspec
    constructor
    · cases k with
      | zero => simpa using hge
      | succ k =>
        have hmin := shiftDown_min a b (a + 1) 0 k (by omega) (by rw [hk]; omega)
        have e1 : b * 2 ^ 52 * 2 ^ (k + 1) = b * 2 ^ (53 + k) := by ring
        rw [e1]
        omega
    · have e1 : b * 2 ^ 53 * 2 ^ k = b * 2 ^ (53 + k) := by ring
      rw [e1]
      exact hspec

/-! ## Claims on the gap-LCP serializer -/

/-- C1: for a width `D` in `[1,7]` and an LCP array of length `len`, the
serializer exits with failure exactly when some entry `LCP[i]`, `1 ≤ i < len`,
is greater than `2^(8D)-1`; whatever the outcome, the bytes written are the
`D`-byte entries of an initial segment `1..j` all of whose values are within
the bound (no entry is written for a value above it); and with `D = 1` an
array holding 300 at an index `i ≥ 1` fails. -/
theorem gap_lcp_fails_iff_overflow (D len : Nat) (LCP : List Int)
    (hD : 1 ≤ D ∧ D ≤ 7) (hv : lcpValues LCP len) :
    ((∃ w, writeGapLcp D LCP len = Except.error w) ↔
        ∃ i, 1 ≤ i ∧ i < len ∧ (2 : Int) ^ (8 * D) - 1 < LCP.getD i 0) ∧
    (∀ w, (writeGapLcp D LCP len = Except.ok w ∨ writeGapLcp D LCP len = Except.error w) →
        ∃ j, j ≤ len - 1 ∧ (∀ i, 1 ≤ i → i ≤ j → LCP.getD i 0 ≤ 2 ^ (8 * D) - 1) ∧
          w = (List.range' 1 j).flatMap (fun i => leBytes D (LCP.getD i 0).toNat)) ∧
    (D = 1 → (∃ i, 1 ≤ i ∧ i < len ∧ LCP.getD i 0 = 300) →
        ∃ w, writeGapLcp D LCP len = Except.error w) := by
  obtain ⟨j, hj, hfit, hres⟩ := writeGapLcp_spec D len LCP (by omega) hv
  have hiff : (∃ w, writeGapLcp D LCP len = Except.error w) ↔
      ∃ i, 1 ≤ i ∧ i < len ∧ (2 : Int) ^ (8 * D) - 1 < LCP.getD i 0 := by
    constructor
    · rintro ⟨w, hw⟩
      rcases hres with ⟨_, hr⟩ | ⟨i, h1, h2, h3, _⟩
      · rw [hr] at hw; cases hw
      · exact ⟨i, h1, h2, h3⟩
    · rintro ⟨i, h1, h2, h3⟩
      rcases hres with ⟨hjl, _⟩ | ⟨_, _, _, _, hr⟩
      · have := hfit i h1 (by omega)
        omega
      · exact ⟨_, hr⟩
  refine ⟨hiff, ?_, ?_⟩
  · intro w hw
    refine ⟨j, hj, hfit, ?_⟩
    rcases hres with ⟨_, hr⟩ | ⟨_, _, _, _, hr⟩ <;> rw [hr] at hw <;>
      rcases hw with hw | hw <;> cases hw <;> rfl
  · rintro rfl ⟨i, h1, h2, h3⟩
    exact hiff.2 ⟨i, h1, h2, by rw [h3]; norm_num⟩

/-- C2: when the serializer succeeds with width `D` in `[1,7]`, the stream is
the concatenation, for `i = 1 .. len-1` in increasing order, of the bytes
`(LCP[i] / 256^k) mod 256`, `k = 0 .. D-1`: byte `k` of the entry of `i` sits
at position `(i-1)*D + k`; the stream has `(len-1)*D` bytes and holds no entry
for `i = 0`. -/
theorem gap_lcp_bytes (D len : Nat) (LCP : List Int) (w : List Nat)
    (hD : 1 ≤ D ∧ D ≤ 7) (hv : lcpValues LCP len)
    (h : writeGapLcp D LCP len = Except.ok w) :
    w = (List.range' 1 (len - 1)).flatMap
          (fun i => (List.range D).map (fun k => (LCP.getD i 0).toNat / 256 ^ k % 256)) ∧
    w.length = (len - 1) * D ∧
    ∀ i k, 1 ≤ i → i < len → k < D →
      w.getD ((i - 1) * D + k) 0 = (LCP.getD i 0).toNat / 256 ^ k % 256 := by
  obtain ⟨j, _, _, hres⟩ := writeGapLcp_spec D len LCP (by omega) hv
  rcases hres with ⟨hjl, hr⟩ | ⟨_, _, _, _, hr⟩
  · rw [hr] at h
    cases h
    subst hjl
    refine ⟨rfl, ?_, ?_⟩
    · rw [flatMap_leBytes_length D (fun i => (LCP.getD i 0).toNat)]
      simp
    · intro i k h1 h2 hk
      have hlen : i - 1 < (List.range' 1 (len - 1)).length := by
        rw [List.length_range']; omega
      rw [flatMap_fixed_getD D (fun i => leBytes D (LCP.getD i 0).toNat)
        (fun i => leBytes_length D _) _ (i - 1) k hlen hk]
      have hidx : (List.range' 1 (len - 1)).getD (i - 1) 0 = i := by
        rw [List.getD_eq_getElem _ _ hlen, List.getElem_range']
        omega
      have hkl : k < (leBytes D (LCP.getD i 0).toNat).length := by
        rw [leBytes_length]; exact hk
      rw [hidx, List.getD_eq_getElem _ _ hkl]
      simp [leBytes]
  · rw [hr] at h; cases h

theorem lcpValues_sample : lcpValues [0, 3, 300, 7] 4 := by
  intro i h1 h2
  interval_cases i <;> simp

theorem lcpValues_sample2 : lcpValues [0, 3, 258, 70000] 4 := by
  intro i h1 h2
  interval_cases i <;> simp

/-- Witness for C1: width 1 on `[0, 3, 300, 7]` writes the entry 3 and exits at 300. -/
theorem gap_lcp_fails_iff_overflow_witness :
    writeGapLcp 1 [0, 3, 300, 7] 4 = Except.error [3] ∧
    ∃ w, writeGapLcp 1 [0, 3, 300, 7] 4 = Except.error w :=
  ⟨by rfl, (gap_lcp_fails_iff_overflow 1 4 [0, 3, 300, 7] (by decide) lcpValues_sample).2.2 rfl
    ⟨2, by decide, by decide, by rfl⟩⟩

/-- Witness for C2: width 3 on `[0, 3, 258, 70000]`. -/
theorem gap_lcp_bytes_witness :
    writeGapLcp 3 [0, 3, 258, 70000] 4 = Except.ok [3, 0, 0, 2, 1, 0, 112, 17, 1] ∧
    [3, 0, 0, 2, 1, 0, 112, 17, 1].length = (4 - 1) * 3 :=
  ⟨by rfl, (gap_lcp_bytes 3 4 [0, 3, 258, 70000] [3, 0, 0, 2, 1, 0, 112, 17, 1] (by decide)
    lcpValues_sample2 (by rfl)).2.1⟩

theorem sizeRecord_eq (len : Nat) (h1 : 1 ≤ len) (h2 : len < 2 ^ 64) : sizeRecord len = len - 1 := by
  unfold sizeRecord
  have : len + 2 ^ 64 - 1 = (len - 1) + 2 ^ 64 := by omega
  rw [this, Nat.add_mod_right, Nat.mod_eq_of_lt (by omega)]

theorem bwtColumn_length (fb : Nat) (SA str : List Nat) (len : Nat) :
    (bwtColumn fb SA str len).length = len - 1 := by
  simp [bwtColumn]

theorem bwtColumn_getD (fb : Nat) (SA str : List Nat) (len i : Nat) (h1 : 1 ≤ i) (h2 : i < len) :
    (bwtColumn fb SA str len).getD (i - 1) 0 = bwtAt fb SA str i := by
  have hl : i - 1 < (bwtColumn fb SA str len).length := by
    rw [bwtColumn_length]; omega
  rw [List.getD_eq_getElem _ _ hl]
  simp only [bwtColumn, List.getElem_map, List.getElem_range']
  congr 1
  omega

/-- C4: in RLE mode (`OutputBwt > 1`, the assertion on `SA[0]` holding) the
loop emits units whose run lengths lie between 1 and 32; a unit with run
length below 32 is followed by a unit for a different symbol or by nothing,
the units expanding exactly to the BWT column; the byte written for a unit is
`rle(symbol, run)`; and a maximal block of 40 equal symbols of the column is
coded by exactly two units, of run lengths 32 then 8. -/
theorem rle_units_greedy (m fb : Nat) (SA str : List Nat) (len : Nat)
    (hm : 1 < m) (ha : SA.getD 0 0 = len - 1) :
    ∃ us, bwtUnits m fb SA str len = some us ∧
      (∀ rle, bwtStage rle m fb SA str len
          = some (us.map (fun u => rle u.1 u.2), [sizeRecord len])) ∧
      (∀ u ∈ us, 1 ≤ u.2 ∧ u.2 ≤ 32) ∧
      List.Chain' (fun a b : Nat × Nat => a.2 < 32 → b.1 ≠ a.1) us ∧
      expandRuns us = bwtColumn fb SA str len ∧
      (∀ pre post c, bwtColumn fb SA str len = pre ++ List.replicate 40 c ++ post →
        pre.getLast? ≠ some c → post.head? ≠ some c →
        ∃ u1 u2, us = u1 ++ [(c, 32), (c, 8)] ++ u2 ∧
          expandRuns u1 = pre ∧ expandRuns u2 = post) := by
  refine ⟨_, bwtUnits_rle m fb SA str len hm ha, ?_, rleList_runs _, rleList_chain _,
    expandRuns_rleList _, ?_⟩
  · intro rle
    have hm0 : m ≠ 0 := by omega
    simp only [bwtStage, hm0, if_false, bwtUnits_rle m fb SA str len hm ha, Option.map_some',
      gt_iff_lt, hm, if_true]
  · intro pre post c hcol hpre hpost
    rw [hcol]
    exact ⟨rleList pre, rleList post, rleList_forty pre post c hpre hpost,
      expandRuns_rleList _, expandRuns_rleList _⟩

/-- Witness for C4: a document of 40 equal symbols gives the units
`(66,32)`, `(66,8)` and the unit of the fallback symbol. -/
theorem rle_units_greedy_witness :
    bwtUnits 2 0 fortySA fortyStr 42 = some [(66, 32), (66, 8), (0, 1)] ∧
    ∃ us, bwtUnits 2 0 fortySA fortyStr 42 = some us ∧ ∀ u ∈ us, 1 ≤ u.2 ∧ u.2 ≤ 32 :=
  ⟨by rfl,
   (rle_units_greedy 2 0 fortySA fortyStr 42 (by decide) (by rfl)).elim
     (fun us h => ⟨us, h.1, h.2.2.1⟩)⟩

/-- C5, as stated, fails: for `banana\0` the entry emitted for index 4, where
`SA[4] = 0`, is the fallback symbol, and there is no `buffer[SA[4]-1]`. -/
theorem plain_bwt_entry_counterexample :
    bwtStage (fun c _ => c) 1 0 bananaSA bananaStr 7 = some ([110, 110, 98, 0, 97, 97], [6]) ∧
    ¬ ∃ fb out sz, bwtStage (fun c _ => c) 1 fb bananaSA bananaStr 7 = some (out, sz) ∧
        ∀ i, 1 ≤ i → i < 7 →
          some (out.getD (i - 1) 0) = strAt bananaStr ((bananaSA.getD i 0 : Nat) - 1 : Int) := by
  refine ⟨by rfl, ?_⟩
  rintro ⟨fb, out, sz, _, h⟩
  have h4 := h 4 (by decide) (by decide)
  simp [strAt, bananaSA] at h4

/-- C5 (amended): in plain BWT mode (`OutputBwt = 1`), for a chunk of length
`len ≥ 1` whose `SA[0]` is `len - 1`, the output is exactly `len-1` symbols,
one for each index `i = 1 .. len-1` in increasing order; the symbol for index
`i` is `buffer[SA[i]-1]` when `SA[i] > 0` and the fallback symbol of `bwt`
when `SA[i] = 0`; index 0 produces no output and the size stream receives
`len-1`. -/
theorem plain_bwt_output (rle : Nat → Nat → Nat) (fb : Nat) (SA str : List Nat) (len : Nat)
    (hlen : 1 ≤ len) (hlt : len < 2 ^ 64) (ha : SA.getD 0 0 = len - 1) :
    ∃ out, bwtStage rle 1 fb SA str len = some (out, [len - 1]) ∧
      out.length = len - 1 ∧
      out = (List.range' 1 (len - 1)).map (fun i => bwt fb (SA.getD i 0) str) ∧
      ∀ i, 1 ≤ i → i < len →
        (SA.getD i 0 = 0 → out.getD (i - 1) 0 = fb) ∧
        (0 < SA.getD i 0 → SA.getD i 0 ≤ str.length →
          some (out.getD (i - 1) 0) = strAt str ((SA.getD i 0 : Nat) - 1 : Int)) := by
  refine ⟨bwtColumn fb SA str len, ?_, bwtColumn_length _ _ _ _, rfl, ?_⟩
  · simp only [bwtStage, if_false, bwtUnits_plain fb SA str len ha, Option.map_some',
      gt_iff_lt, lt_irrefl, List.map_map, sizeRecord_eq len hlen hlt, one_ne_zero]
    congr 2
    simp [Function.comp_def]
  · intro i h1 h2
    rw [bwtColumn_getD fb SA str len i h1 h2]
    constructor
    · intro h0
      simp only [bwtAt, bwt, h0, if_true]
    · intro hpos hle
      have hne : SA.getD i 0 ≠ 0 := by omega
      have hz : ((SA.getD i 0 : Nat) - 1 : Int) = ((SA.getD i 0 - 1 : Nat) : Int) := by omega
      have hin : SA.getD i 0 - 1 < str.length := by omega
      simp only [bwtAt, bwt, hne, if_false, strAt, hz, Int.toNat_ofNat, Int.natCast_nonneg,
        if_true]
      rw [List.getD_eq_getElem _ _ hin, List.get?_eq_getElem?, List.getElem?_eq_getElem hin]

/-- Witness for C5 (amended): the plain BWT of `banana\0`. -/
theorem plain_bwt_output_witness :
    bwtStage (fun c _ => c) 1 0 bananaSA bananaStr 7 = some ([110, 110, 98, 0, 97, 97], [6]) ∧
    ∃ out, bwtStage (fun c _ => c) 1 0 bananaSA bananaStr 7 = some (out, [7 - 1]) ∧
      out.length = 7 - 1 :=
  ⟨by rfl,
   (plain_bwt_output (fun c _ => c) 0 bananaSA bananaStr 7 (by decide) (by norm_num) (by rfl)).elim
     (fun out h => ⟨out, h.1, h.2.1⟩)⟩

/-- C10: for every buffer and SA of length `len`, RLE mode and plain mode
abort together (on the assertion) or both succeed, and then the RLE unit
sequence, each `(symbol, run)` replaced by `run` copies of `symbol`, is
exactly the plain-mode sequence; when `SA[0] = len - 1` both succeed, the
plain sequence being the BWT column, and the run lengths sum to `len-1`, the
value recorded in the size stream. -/
theorem rle_expands_to_plain (rle : Nat → Nat → Nat) (m fb : Nat) (SA str : List Nat)
    (len : Nat) (hm : 1 < m) :
    (bwtUnits m fb SA str len).map expandRuns
      = (bwtUnits 1 fb SA str len).map (List.map Prod.fst) ∧
    (1 ≤ len → len < 2 ^ 64 → SA.getD 0 0 = len - 1 →
      ∃ us plain, bwtUnits m fb SA str len = some us ∧
        bwtStage rle m fb SA str len = some (us.map (fun u => rle u.1 u.2), [len - 1]) ∧
        bwtStage rle 1 fb SA str len = some (plain, [len - 1]) ∧
        plain = bwtColumn fb SA str len ∧
        expandRuns us = plain ∧
        (us.map (fun u => u.2)).sum = len - 1) := by
  refine ⟨bwtUnits_expand m fb SA str len hm, ?_⟩
  intro hlen hlt ha
  have hm0 : m ≠ 0 := by omega
  refine ⟨rleList (bwtColumn fb SA str len), bwtColumn fb SA str len,
    bwtUnits_rle m fb SA str len hm ha, ?_, ?_, rfl, expandRuns_rleList _, ?_⟩
  · simp only [bwtStage, hm0, if_false, bwtUnits_rle m fb SA str len hm ha, Option.map_some',
      gt_iff_lt, hm, if_true, sizeRecord_eq len hlen hlt]
  · simp only [bwtStage, if_false, bwtUnits_plain fb SA str len ha, Option.map_some',
      gt_iff_lt, lt_irrefl, List.map_map, sizeRecord_eq len hlen hlt, one_ne_zero]
    congr 2
    simp [Function.comp_def]
  · rw [sum_runs, expandRuns_rleList, bwtColumn_length]

/-- Witness for C10: the chunk of 40 equal symbols; the runs 32, 8 and 1 sum to 41. -/
theorem rle_expands_to_plain_witness :
    bwtUnits 2 0 fortySA fortyStr 42 = some [(66, 32), (66, 8), (0, 1)] ∧
    bwtStage (fun c _ => c) 1 0 fortySA fortyStr 42 = some (List.replicate 40 66 ++ [0], [41]) ∧
    ∃ us plain, bwtUnits 2 0 fortySA fortyStr 42 = some us ∧
      bwtStage (fun c _ => c) 1 0 fortySA fortyStr 42 = some (plain, [42 - 1]) ∧
      expandRuns us = plain ∧ (us.map (fun u => u.2)).sum = 42 - 1 :=
  ⟨by rfl, by rfl,
   ((rle_expands_to_plain (fun c _ => c) 2 0 fortySA fortyStr 42 (by decide)).2 (by decide)
      (by norm_num) (by rfl)).elim
     (fun us h => h.elim
       (fun plain h => ⟨us, plain, h.1, h.2.2.1, h.2.2.2.2.1, h.2.2.2.2.2⟩))⟩

/-- C6, as stated, fails: the suffix array of `banana\0` is a permutation of
`[0,7)` with `SA[0] = 6`, yet `SA[4] = 0`, and the entry emitted for index 4
is the fallback symbol of `bwt` (here 255, a symbol absent from the buffer). -/
theorem fallback_taken_counterexample :
    isChunkSA bananaSA 7 ∧
    (∃ i, 0 < i ∧ i < 7 ∧ bananaSA.getD i 0 = 0) ∧
    bwtStage (fun c _ => c) 1 255 bananaSA bananaStr 7
      = some ([110, 110, 98, 255, 97, 97], [6]) := by
  refine ⟨by decide, ⟨4, by decide, by decide, by rfl⟩, by rfl⟩

theorem expandRuns_singletons (xs : List Nat) :
    expandRuns (xs.map (fun c => (c, 1))) = xs := by
  induction xs with
  | nil => rfl
  | cons x xs ih =>
    rw [List.map_cons, expandRuns_cons, ih]
    rfl

/-- In either mode the units emitted by the loop expand to the BWT column. -/
theorem bwtUnits_column (m fb : Nat) (SA str : List Nat) (len : Nat) (hm : 1 ≤ m)
    (ha : SA.getD 0 0 = len - 1) :
    ∃ us, bwtUnits m fb SA str len = some us ∧ expandRuns us = bwtColumn fb SA str len ∧
      (m = 1 → us.map Prod.fst = bwtColumn fb SA str len) := by
  rcases Nat.lt_or_ge 1 m with hm1 | hm1
  · exact ⟨_, bwtUnits_rle m fb SA str len hm1 ha, expandRuns_rleList _, fun h => by omega⟩
  · have : m = 1 := by omega
    subst this
    refine ⟨_, bwtUnits_plain fb SA str len ha, expandRuns_singletons _, fun _ => ?_⟩
    rw [List.map_map]
    simp [Function.comp_def]

/-- C6 (amended): for a chunk of length `len ≥ 2` whose SA is a permutation
of `[0,len)` with `SA[0] = len-1`, exactly one index `i0` with `1 ≤ i0 < len`
has `SA[i0] = 0`; the output loop (plain mode or RLE mode) succeeds, and among
the symbols it emits for `i = 1 .. len-1` (in RLE mode, the symbols its units
stand for) the one of index `i0` is the fallback symbol of `bwt`, while the
symbol of every other index `j` is `buffer[SA[j]-1]`; in plain mode these
symbols are the bytes written. -/
theorem fallback_taken_once (rle : Nat → Nat → Nat) (m fb : Nat) (SA str : List Nat)
    (len : Nat) (hm : 1 ≤ m) (hSA : isChunkSA SA len) (hstr : str.length = len)
    (hlen : 2 ≤ len) :
    ∃ i0, 1 ≤ i0 ∧ i0 < len ∧ SA.getD i0 0 = 0 ∧
      (∀ j, 1 ≤ j → j < len → SA.getD j 0 = 0 → j = i0) ∧
      ∃ us, bwtUnits m fb SA str len = some us ∧
        (expandRuns us).length = len - 1 ∧
        (expandRuns us).getD (i0 - 1) 0 = fb ∧
        (∀ j, 1 ≤ j → j < len → j ≠ i0 →
          some ((expandRuns us).getD (j - 1) 0)
            = strAt str ((SA.getD j 0 : Nat) - 1 : Int)) ∧
        (m = 1 → bwtStage rle m fb SA str len = some (expandRuns us, [sizeRecord len])) := by
  obtain ⟨hperm, h0⟩ := hSA
  have hlenSA : SA.length = len := by
    rw [hperm.length_eq, List.length_range]
  have hnodup : SA.Nodup := hperm.nodup_iff.2 (List.nodup_range len)
  have hmem : 0 ∈ SA := hperm.mem_iff.2 (List.mem_range.2 (by omega))
  obtain ⟨i, hi, hget⟩ := List.mem_iff_getElem.1 hmem
  have hgetD : SA.getD i 0 = 0 := by rw [List.getD_eq_getElem _ _ hi, hget]
  have hipos : 1 ≤ i := by
    rcases Nat.eq_zero_or_pos i with hz | hpos
    · subst hz
      rw [h0] at hgetD
      omega
    · exact hpos
  have huniq : ∀ j, 1 ≤ j → j < len → SA.getD j 0 = 0 → j = i := by
    intro j _ hj hj0
    have hj' : j < SA.length := by omega
    rw [List.getD_eq_getElem _ _ hj'] at hj0
    exact (List.Nodup.getElem_inj_iff hnodup).1 (hj0.trans hget.symm)
  obtain ⟨us, hus, hexp, hplain⟩ := bwtUnits_column m fb SA str len hm h0
  refine ⟨i, hipos, by omega, hgetD, huniq, us, hus, ?_, ?_, ?_, ?_⟩
  · rw [hexp, bwtColumn_length]
  · rw [hexp, bwtColumn_getD fb SA str len i hipos (by omega)]
    simp only [bwtAt, bwt, hgetD, if_true]
  · intro j h1 h2 hji
    rw [hexp, bwtColumn_getD fb SA str len j h1 h2]
    have hj' : j < SA.length := by omega
    have hne : SA.getD j 0 ≠ 0 := fun h => hji (huniq j h1 h2 h)
    have hlt : SA.getD j 0 < len := by
      have hm' : SA.getD j 0 ∈ SA := by
        rw [List.getD_eq_getElem _ _ hj']
        exact List.getElem_mem _
      exact List.mem_range.1 (hperm.mem_iff.1 hm')
    have hz : ((SA.getD j 0 : Nat) - 1 : Int) = ((SA.getD j 0 - 1 : Nat) : Int) := by omega
    have hin : SA.getD j 0 - 1 < str.length := by omega
    simp only [bwtAt, bwt, hne, if_false, strAt, hz, Int.toNat_ofNat, Int.natCast_nonneg,
      if_true]
    rw [List.getD_eq_getElem _ _ hin, List.get?_eq_getElem?, List.getElem?_eq_getElem hin]
  · intro hm1
    subst hm1
    simp only [bwtStage, one_ne_zero, if_false, hus, Option.map_some', gt_iff_lt, lt_irrefl]
    rw [hexp, ← hplain rfl]

/-- Witness for C6 (amended): `banana\0` in plain mode, where the index is 4
and the fallback symbol 255 is the fourth byte written. -/
theorem fallback_taken_once_witness :
    isChunkSA bananaSA 7 ∧
    bwtStage (fun c _ => c) 1 255 bananaSA bananaStr 7
      = some ([110, 110, 98, 255, 97, 97], [6]) ∧
    ∃ i0, 1 ≤ i0 ∧ i0 < 7 ∧ bananaSA.getD i0 0 = 0 ∧
      ∃ us, bwtUnits 1 255 bananaSA bananaStr 7 = some us ∧
        (expandRuns us).getD (i0 - 1) 0 = 255 :=
  ⟨by decide, by rfl,
   (fallback_taken_once (fun c _ => c) 1 255 bananaSA bananaStr 7 (by decide) (by decide)
      (by rfl) (by decide)).elim
     (fun i0 h => ⟨i0, h.1, h.2.1, h.2.2.1,
       h.2.2.2.2.elim (fun us hu => ⟨us, hu.1, hu.2.2.1⟩)⟩)⟩

/-! ## Claims on the chunk size, the gap width and the SA output names -/

/-- C7, as stated, fails: in the 64-bit build (`sizeof(int_t) = 8`,
`I_MAX = 2^63-1`) without a ceiling and without LCP, `chunk_size` is
1024819115206086144 while `floor(I_MAX / 9)` is 1024819115206086200; and for
the ceiling `2^64 - 5*2^20` (what `-m -5` sets) in the 32-bit build the
product `chunk_size * 5` exceeds the ceiling. -/
theorem chunk_size_floor_counterexample :
    chunk_size 8 (2 ^ 63 - 1) false 0 = 1024819115206086144 ∧
    (2 ^ 63 - 1) / (8 * 1 + 1) = 1024819115206086200 ∧
    chunk_size 4 (2 ^ 31 - 1) false (2 ^ 64 - 5 * 2 ^ 20) = 3689348814740861952 ∧
    2 ^ 64 - 5 * 2 ^ 20 < 3689348814740861952 * (4 * 1 + 1) := by
  refine ⟨by rfl, by norm_num, by rfl, by norm_num⟩

/-- C7 (amended): for a ceiling `0 < RAM < 2^51` (every ceiling a positive
count of MB gives), an index width `w ≤ 8` and `a` arrays (1 without LCP, 2
with it), `chunk_size = floor(RAM / (w*a+1))`, so `chunk_size * (w*a+1) ≤ RAM`
and `chunk_size` is the largest such integer; without a ceiling the same
double-precision computation is applied to `I_MAX`: it gives
`floor(I_MAX / (w*a+1))` when `I_MAX < 2^51` (the 32-bit build), and for
`I_MAX = 2^63-1` with `w = 8` it gives 1024819115206086144 (`a = 1`) and
542551296285575040 (`a = 2`), which stay within `I_MAX` when multiplied by
`w*a+1`. -/
theorem chunk_size_formula (w I_MAX RAM : Nat) (LCP_COMPUTE : Bool)
    (hw : w ≤ 8) (hR : 0 < RAM) (hlt : RAM < 2 ^ 51) :
    chunk_size w I_MAX LCP_COMPUTE RAM = RAM / (w * (if LCP_COMPUTE then 2 else 1) + 1) ∧
    chunk_size w I_MAX LCP_COMPUTE RAM * (w * (if LCP_COMPUTE then 2 else 1) + 1) ≤ RAM ∧
    (∀ c, c * (w * (if LCP_COMPUTE then 2 else 1) + 1) ≤ RAM →
      c ≤ chunk_size w I_MAX LCP_COMPUTE RAM) ∧
    (I_MAX < 2 ^ 51 →
      chunk_size w I_MAX LCP_COMPUTE 0 = I_MAX / (w * (if LCP_COMPUTE then 2 else 1) + 1)) ∧
    (chunk_size 8 (2 ^ 63 - 1) false 0 = 1024819115206086144 ∧
      1024819115206086144 * (8 * 1 + 1) ≤ 2 ^ 63 - 1) ∧
    (chunk_size 8 (2 ^ 63 - 1) true 0 = 542551296285575040 ∧
      542551296285575040 * (8 * 2 + 1) ≤ 2 ^ 63 - 1) := by
  have hd : 0 < w * (if LCP_COMPUTE then 2 else 1) + 1 := Nat.succ_pos _
  have hne : RAM ≠ 0 := by omega
  have hval : chunk_size w I_MAX LCP_COMPUTE RAM
      = RAM / (w * (if LCP_COMPUTE then 2 else 1) + 1) := by
    rw [chunk_size_eq w I_MAX LCP_COMPUTE RAM hw, if_pos hne, toDouble_eq RAM hlt,
      divToSize_eq _ _ hd hlt]
  refine ⟨hval, ?_, ?_, ?_, ⟨by rfl, by norm_num⟩, ⟨by rfl, by norm_num⟩⟩
  · rw [hval]
    exact Nat.div_mul_le_self _ _
  · intro c hc
    rw [hval]
    exact (Nat.le_div_iff_mul_le hd).2 hc
  · intro hI
    rw [chunk_size_eq w I_MAX LCP_COMPUTE 0 hw, if_neg (by simp), toDouble_eq I_MAX hI,
      divToSize_eq _ _ hd hI]

/-- Witness for C7 (amended): the 32-bit build with LCP and a ceiling of 100 MB. -/
theorem chunk_size_formula_witness :
    chunk_size 4 (2 ^ 31 - 1) true (100 * 2 ^ 20) = 11650844 ∧
    chunk_size 4 (2 ^ 31 - 1) true (100 * 2 ^ 20) * (4 * (if true then 2 else 1) + 1)
      ≤ 100 * 2 ^ 20 :=
  ⟨by rfl,
   (chunk_size_formula 4 (2 ^ 31 - 1) (100 * 2 ^ 20) true (by decide) (by norm_num)
      (by norm_num)).2.1⟩

/-- C8, as stated, fails: in the 32-bit build (`sizeof(int_t) = 4`) the width
5, which lies in `[1,7]`, is rejected by the second check; and the width 0,
which lies outside `[1,7]`, passes both checks. -/
theorem gap_width_counterexample :
    checkGapWidth 4 5 = GapCheck.needs64 ∧ checkGapWidth 8 0 = GapCheck.accepted := by
  refine ⟨by rfl, by rfl⟩

/-- C8 (amended): a requested width `D ≠ 0` passes the pre-flight validation
of a build with `sizeof(int_t) = w` exactly when `1 ≤ D ≤ 7` and `D ≤ w`; in
the 64-bit build (`w = 8`) this is `1 ≤ D ≤ 7`; every `D < 0` and every
`D ≥ 8` is rejected as an invalid size. -/
theorem gap_width_accepted_iff (w : Nat) (D : Int) (hD : D ≠ 0) :
    (checkGapWidth w D = GapCheck.accepted ↔ 1 ≤ D ∧ D ≤ 7 ∧ D ≤ w) ∧
    (checkGapWidth 8 D = GapCheck.accepted ↔ 1 ≤ D ∧ D ≤ 7) ∧
    (D < 0 ∨ 8 ≤ D → checkGapWidth w D = GapCheck.invalidSize) := by
  have key : ∀ v : Nat, checkGapWidth v D = GapCheck.accepted ↔ 1 ≤ D ∧ D ≤ 7 ∧ D ≤ v := by
    intro v
    unfold checkGapWidth
    by_cases h1 : D < 0 ∨ D ≥ 8
    · rw [if_pos h1]
      constructor
      · intro h; cases h
      · rintro ⟨h2, h3, _⟩; omega
    · rw [if_neg h1]
      have h0 : 0 ≤ D := by omega
      have hu : toU64 D = D.toNat := toU64_of_nonneg h0 (by omega)
      rw [hu]
      by_cases h2 : D.toNat > v
      · rw [if_pos h2]
        constructor
        · intro h; cases h
        · rintro ⟨_, _, h3⟩; omega
      · rw [if_neg h2]
        constructor
        · intro _; omega
        · intro _; rfl
  refine ⟨key w, ?_, ?_⟩
  · rw [key 8]
    constructor
    · rintro ⟨h1, h2, _⟩; exact ⟨h1, h2⟩
    · rintro ⟨h1, h2⟩; exact ⟨h1, h2, by norm_num; omega⟩
  · intro h
    unfold checkGapWidth
    rw [if_pos (by omega)]

/-- Witness for C8 (amended): width 3 in the 32-bit build. -/
theorem gap_width_accepted_iff_witness :
    checkGapWidth 4 3 = GapCheck.accepted ∧ ((1 : Int) ≤ 3 ∧ (3 : Int) ≤ 7 ∧ (3 : Int) ≤ (4 : Nat)) :=
  ⟨by rfl, ((gap_width_accepted_iff 4 3 (by decide)).1).1 (by rfl)⟩

/-- C9 fails on the code: without LCP the writer is handed the extension
`"sa"` for every chunk (the name `"<b>.sa"` is built in `tmp` and not used),
so whatever way the writer forms a file name from the base name and the
extension, all chunks get the same artifact; with LCP the extension is
`"<b>.sa_lcp"`. -/
theorem sa_artifact_same_for_all_chunks :
    (∀ (mkName : String → String → String) (outfile : String) (b1 b2 : Nat),
      saArtifact mkName false outfile b1 = saArtifact mkName false outfile b2) ∧
    tmp false 0 = "0.sa" ∧ tmp false 1 = "1.sa" ∧
    saExt false 0 = "sa" ∧ saExt false 1 = "sa" ∧
    saExt true 0 = "0.sa_lcp" ∧ saExt true 1 = "1.sa_lcp" := by
  refine ⟨fun _ _ _ _ => rfl, by decide, by decide, by decide, by decide, by decide, by decide⟩

end Gsacak
